import Mathlib

/-!
Shallow embedding of the expression tokenizer, separator detection and
fallback-resolution core of the `envpath` crate.

Rust `&str` values are modelled as `List Char`; Rust byte offsets (as returned
by `str::find`) are modelled faithfully by summing UTF-8 sizes of the
characters.  `OsStr` values are likewise modelled as `List Char` and `OsCow`
as `Option (List Char)`.  The external collaborators (environment variables,
the OS directory tables of the `dirs`/`directories` crates, compile-time
constants and the filesystem-existence check) are passed in as a `Providers`
record, exactly at the provider interface described by the crate: each is a
function from an identifier to an optional OS string.
-/

namespace Envpath

/-- Rust `&str` modelled as a list of characters. -/
abbrev Str := List Char

/-- Unicode `White_Space` property, the set used by Rust `char::is_whitespace`
(which `str::trim` uses). -/
def isRustWs (c : Char) : Bool :=
  let n := c.toNat
  (0x09 ≤ n && n ≤ 0x0D) || n = 0x20 || n = 0x85 || n = 0xA0 || n = 0x1680 ||
  (0x2000 ≤ n && n ≤ 0x200A) || n = 0x2028 || n = 0x2029 || n = 0x202F ||
  n = 0x205F || n = 0x3000

/-- Rust `str::trim_start`. -/
def trimStart (s : Str) : Str := s.dropWhile isRustWs

/-- Rust `str::trim_end`. -/
def trimEnd (s : Str) : Str := (s.reverse.dropWhile isRustWs).reverse

/-- Rust `str::trim`. -/
def trim (s : Str) : Str := trimEnd (trimStart s)

/-- UTF-8 size in bytes of one scalar value, used to model Rust byte offsets. -/
def utf8Size (c : Char) : Nat :=
  if c.toNat < 0x80 then 1
  else if c.toNat < 0x800 then 2
  else if c.toNat < 0x10000 then 3
  else 4

/-- Rust `str::find(char)`: byte offset of the first occurrence. -/
def findChar : Str → Char → Option Nat
  | [], _ => none
  | x :: xs, c => if x = c then some 0 else (findChar xs c).map (· + utf8Size x)

/-- Rust `str::split(char)`: all pieces between occurrences of the separator
(`n` separators give `n + 1` pieces; the empty string gives one empty piece). -/
def splitOnChar (sep : Char) : Str → List Str
  | [] => [[]]
  | c :: rest =>
    match splitOnChar sep rest with
    | [] => [[]]
    | piece :: ps =>
      if c = sep then [] :: piece :: ps else (c :: piece) :: ps

/-- Rust `str::split_terminator(char)`: like `split`, but a final empty piece
(produced when the string ends with the separator) is dropped. -/
def splitTerminator (sep : Char) (s : Str) : List Str :=
  if (splitOnChar sep s).getLast? = some [] then (splitOnChar sep s).dropLast
  else splitOnChar sep s

/-- Rust `str::splitn(2, char)`: split at the first occurrence only. -/
def splitN2 (sep : Char) : Str → List Str
  | [] => [[]]
  | c :: rest =>
    if c = sep then [[], rest]
    else
      match splitN2 sep rest with
      | [] => [[c]]
      | p :: ps => (c :: p) :: ps

/-- Rust `s.starts_with(pat)` for a string pattern: `startsWith pat s`. -/
def startsWith : Str → Str → Bool
  | [], _ => true
  | _ :: _, [] => false
  | p :: ps, c :: cs => p = c && startsWith ps cs

/-- Recursion core of `trim_start_matches`: strip the pattern while it is a
leading pattern, spending one unit of fuel per strip.  Each strip removes at
least one character when the pattern is non-empty, so `s.length` fuel always
suffices and the fuel never changes the result. -/
def trimStartMatchesGo (pat : Str) : Nat → Str → Str
  | 0, s => s
  | fuel + 1, s =>
    if pat.isEmpty then s
    else if startsWith pat s then
      trimStartMatchesGo pat fuel (s.drop pat.length)
    else s

/-- Rust `str::trim_start_matches(&str)`: repeatedly remove the pattern from
the front while it is present. -/
def trimStartMatchesStr (pat : Str) (s : Str) : Str :=
  trimStartMatchesGo pat s.length s

/-- Rust `str::trim_start_matches(char)` specialised to a single character:
drop all leading occurrences. -/
def trimStartMatchesChar (c : Char) (s : Str) : Str := s.dropWhile (· = c)

/-- Rust `s.rsplit([a, b]).next()`: the piece after the last occurrence of
either character (the whole string when neither occurs). -/
def afterLastOf (seps : List Char) (s : Str) : Str :=
  (s.reverse.takeWhile (fun c => ¬ seps.contains c)).reverse

/-- Rust `char::to_ascii_uppercase`. -/
def toAsciiUpperChar (c : Char) : Char :=
  if 97 ≤ c.toNat ∧ c.toNat ≤ 122 then Char.ofNat (c.toNat - 32) else c

/-- Rust `str::to_ascii_uppercase`. -/
def toAsciiUpper (s : Str) : Str := s.map toAsciiUpperChar

/-- The per-character action of the `$env` casing step in `de()`:
ASCII-uppercase, then replace `-` by `_`. -/
def gchar (c : Char) : Char :=
  if toAsciiUpperChar c = '-' then '_' else toAsciiUpperChar c

/-! ## External collaborators

`Providers` packages the provider functions that the core consumes, exactly at
the interface boundary of the crate: `env` is `std::env::var_os`; `baseDirs`,
`constDirs` and `vals` are the `match_base_dirs` / `match_const_dirs` /
`match_values` tables (OS- and build-dependent leaf tables); `pdFrom` is
`directories::ProjectDirs::from`; `matchProj` is `match_proj_dirs`
(argument order `ident`, `name`, `proj`, the OS-dependent project-directory
table); `fs` is `Path::new(..).exists()`.  `PD` is the (opaque) type of
`directories::ProjectDirs` values. -/
structure Providers (PD : Type) where
  env : Str → Option Str
  baseDirs : Str → Option Str
  constDirs : Str → Option Str
  vals : Str → Option Str
  pdFrom : Str → Str → Str → Option PD
  matchProj : Str → Str → Option PD → Option Str
  fs : Str → Bool

/-- Rust `std::ops::ControlFlow<B, C>` with both payloads of the same type,
as used by `try_fold` in `parse_dir_rules`. -/
inductive Flow (α : Type) where
  | brk : α → Flow α
  | cont : α → Flow α
deriving DecidableEq, Repr

/-- The `Break(x) | Continue(x) => x` collapse performed by the callers of
`parse_dir_rules` / `parse_proj_dir_rules`. -/
def Flow.collapse : Flow α → α
  | .brk x => x
  | .cont x => x

/-- Rust `Iterator::try_fold` specialised to `ControlFlow`. -/
def tryFold (f : β → α → Flow β) : β → List α → Flow β
  | acc, [] => .cont acc
  | acc, x :: xs =>
    match f acc x with
    | .brk b => .brk b
    | .cont c => tryFold f c xs

/-! ## src/os_env.rs -/

/-- Fullwidth question mark `FWQM` (`'\u{FF1F}'`). -/
def FWQM : Char := '？'

/-- Halfwidth question mark `HWQM` (`'\u{3F}'`). -/
def HWQM : Char := '?'

/-- `EnvPath::START_ARR`. -/
def START_ARR : List Str := ["env".toList, "dir".toList, "const".toList,
  "proj".toList, "val".toList]

/-- `EnvPath::parse_dir_rules`: split on the question-mark separator with
`split_terminator`, trim each segment, and `try_fold` with an
`Option` accumulator over the four-case `(acc, segment_is_empty)` table.
The Rust arm `(p, false) => Break(p)` is reached only with `p = Some _`
(the `(None, false)` arm matches first), written `some p` here. -/
def parse_dir_rules {PD : Type} (P : Providers PD) (s : Str)
    (f : Str → Option Str) (separator : Char) : Flow (Option Str) :=
  tryFold
    (fun acc x =>
      match acc, x.isEmpty with
      | none, true => .cont none
      | none, false => .cont (f x)
      | some p, false => .brk (some p)
      | some p, true => if P.fs p then .brk (some p) else .cont none)
    none
    ((splitTerminator separator s).map trim)

/-- `EnvPath::get_question_mark_separator`: the guards of the Rust `match`
over `(s.find(hq), s.find(fq))`, with `' '` as the no-separator sentinel. -/
def get_question_mark_separator (s : Str) : Char :=
  match findChar s HWQM, findChar s FWQM with
  | some h, some f => if h < f then HWQM else if f < h then FWQM else ' '
  | some _, none => HWQM
  | none, some _ => FWQM
  | none, none => ' '

/-- `EnvPath::into_os_env`: `var_os(x).map(Cow::from)`. -/
def into_os_env {PD : Type} (P : Providers PD) (x : Str) : Option Str := P.env x

/-- `EnvPath::starts_with_remix_expr`. -/
def starts_with_remix_expr (x : Str) : Bool :=
  match splitN2 '*' x with
  | [start, _] => START_ARR.any (fun s => startsWith s start)
  | _ => false

/-! ## src/parser.rs: separator detection and chunking -/

/-- Fullwidth colon `FULL_COLON` (`'\u{FF1A}'`). -/
def FULL_COLON : Char := '：'

/-- Halfwidth colon `HALF_COLON` (`'\u{3A}'`). -/
def HALF_COLON : Char := ':'

/-- `EnvPath::split_n`: `s.splitn(2, c).map(|x| x.trim()).collect()`. -/
def split_n (s : Str) (c : Char) : List Str := (splitN2 c s).map trim

/-- `EnvPath::get_chunks`: pick the colon variant that occurs first (by byte
offset) and split into at most two trimmed chunks; no colon gives `[]`. -/
def get_chunks (s : Str) : List Str :=
  match findChar s HALF_COLON, findChar s FULL_COLON with
  | some h, some f =>
    if h < f then split_n s HALF_COLON
    else if f < h then split_n s FULL_COLON
    else []
  | some _, none => split_n s HALF_COLON
  | none, some _ => split_n s FULL_COLON
  | none, none => []

/-! ## src/project_dirs.rs: project-name parsing -/

/-- Char-index of the first occurrence (used only to slice between matched
parentheses, where char indices and Rust byte indices pick the same chars). -/
def idxOfChar (s : Str) (c : Char) : Option Nat := s.findIdx? (· = c)

/-- Char-index of the last occurrence, Rust `str::rfind(char)`. -/
def rIdxOfChar (s : Str) (c : Char) : Option Nat :=
  (s.reverse.findIdx? (· = c)).map (fun i => s.length - 1 - i)

/-- `EnvPath::get_project_name`: slice the content between the first `(` and
the last `)`, split it on `.`, trim the parts, and build the
`(qualifier, organization, application)` triple by arity.  (The Rust slice
`c0[start+1..end]` panics when the last `)` sits before the first `(`; this
model returns the empty content there, a case no theorem below relies on.) -/
def get_project_name (c0 : Str) : Option (Str × Str × Str) :=
  match idxOfChar c0 '(', rIdxOfChar c0 ')' with
  | some s, some e =>
    match (splitOnChar '.' ((c0.take e).drop (s + 1))).map trim with
    | [] => none
    | [p0] => some (p0, [], p0)
    | [p0, p1] => some (p0, [], p1)
    | [p0, p1, p2] => some (p0, p1, p2)
    | p0 :: p1 :: rest => some (p0, p1, rest.flatten)
  | _, _ => none

/-- Join with `.` (Rust `Vec::join(".")`). -/
def joinDot (xs : List Str) : Str := (List.intersperse ".".toList xs).flatten

/-- `EnvPath::set_proj_name_opt_tuple`: the dotted display name of the
non-empty parts, paired with `ProjectDirs::from(qual, org, &app)`. -/
def set_proj_name_opt_tuple {PD : Type} (P : Providers PD) (chunk : Str) :
    Option (Str × Option PD) :=
  (get_project_name chunk).map (fun t =>
    (joinDot ([t.1, t.2.1, t.2.2].filter (fun x => !x.isEmpty)),
     P.pdFrom t.1 t.2.1 t.2.2))

/-! ## src/os_env.rs: remix dispatch and the env handler

The leaf tables reached from `handle_remix` (`match_base_dirs`,
`match_const_dirs`, `match_values`, `match_proj_dirs`) are provider calls
here; their bodies are OS-directory tables outside the resolution core. -/

/-- Dispatch on the tag in the body of `EnvPath::handle_remix`, applied to
the already-stripped identifier right of the `*`. -/
def handle_remix_dispatch {PD : Type} (P : Providers PD) (start : Str)
    (trimed : Str) : Option Str :=
  if start = "env".toList then into_os_env P trimed
  else if start = "dir".toList then P.baseDirs trimed
  else if start = "proj".toList then
    match get_chunks trimed with
    | [] => none
    | [_] => none
    | c0 :: c1 :: _ =>
      match set_proj_name_opt_tuple P c0 with
      | some (name, proj) => P.matchProj c1 name proj
      | none => none
  else if start = "const".toList then P.constDirs trimed
  else if start = "val".toList then P.vals trimed
  else none

/-- `EnvPath::handle_remix`: strip the leading tag, and when the rest starts
with `*`, strip the `*`s, trim, and dispatch on the tag. -/
def handle_remix {PD : Type} (P : Providers PD) (s : Str) (start : Str) :
    Option Str :=
  if startsWith "*".toList (trim (trimStartMatchesStr start s)) then
    handle_remix_dispatch P start
      (trim (trimStartMatchesChar '*' (trim (trimStartMatchesStr start s))))
  else none

/-- `EnvPath::parse_remix_expr`: probe the tags of `START_ARR` that the whole
ident starts with, taking the first `handle_remix` hit. -/
def parse_remix_expr {PD : Type} (P : Providers PD) (x : Str) : Option Str :=
  ((START_ARR.filter (fun start => startsWith start x)).map
    (fun start => handle_remix P x start)).findSome? id

/-- `EnvPath::match_os_env`. -/
def match_os_env {PD : Type} (P : Providers PD) (ident : Str) : Option Str :=
  if starts_with_remix_expr ident then parse_remix_expr P ident
  else into_os_env P ident

/-- `EnvPath::handle_envs`. -/
def handle_envs {PD : Type} (P : Providers PD) (ident : Str) : Option Str :=
  match get_question_mark_separator ident with
  | sep =>
    if sep = ' ' then P.env ident
    else (parse_dir_rules P ident (match_os_env P) sep).collapse

/-- `EnvPath::handle_const_dirs` (src/const_dirs.rs). -/
def handle_const_dirs {PD : Type} (P : Providers PD) (ident : Str) :
    Option Str :=
  let sep := get_question_mark_separator ident
  if sep = ' ' then P.constDirs ident
  else (parse_dir_rules P ident P.constDirs sep).collapse

/-- `EnvPath::handle_values` (src/value.rs). -/
def handle_values {PD : Type} (P : Providers PD) (ident : Str) : Option Str :=
  let sep := get_question_mark_separator ident
  if sep = ' ' then P.vals ident
  else (parse_dir_rules P ident P.vals sep).collapse

/-- `EnvPath::handle_dirs` (src/base_dirs.rs). -/
def handle_dirs {PD : Type} (P : Providers PD) (ident : Str) : Option Str :=
  let sep := get_question_mark_separator ident
  if sep = ' ' then P.baseDirs ident
  else (parse_dir_rules P ident P.baseDirs sep).collapse

/-! ## src/project_dirs.rs: the multi-group fold -/

/-- The group chunk selected for the alternative `x` at index `u`: the Rust
match on `(u, x.find('('))`, which is also the value `last_chunk` holds after
the step (the third arm leaves `last_chunk` unchanged). -/
def projChunkSel (first lastChunk xt : Str) (u : Nat) : Str :=
  match u, idxOfChar xt '(' with
  | 0, none => first
  | _, some _ => xt
  | _ + 1, none => lastChunk

/-- The `try_fold` body of `EnvPath::parse_proj_dir_rules`, written as a
recursion carrying the mutable `last_chunk` and the `enumerate` index `u`.
Segments are trimmed inside, as in `.map(|(u, x)| (u, x.trim()))`. -/
def parseProjAux {PD : Type} (P : Providers PD) (first : Str) :
    Str → Option Str → Nat → List Str → Flow (Option Str)
  | _, acc, _, [] => .cont acc
  | lastChunk, acc, u, x :: xs =>
    match acc, (trim x).isEmpty with
    | none, true => parseProjAux P first lastChunk none (u + 1) xs
    | none, false =>
      match set_proj_name_opt_tuple P (projChunkSel first lastChunk (trim x) u) with
      | none => .brk none
      | some (name, proj) =>
        parseProjAux P first (projChunkSel first lastChunk (trim x) u)
          (P.matchProj (trim (afterLastOf [FULL_COLON, HALF_COLON] (trim x)))
            name proj) (u + 1) xs
    | some p, false => .brk (some p)
    | some p, true =>
      if P.fs p then .brk (some p)
      else parseProjAux P first lastChunk none (u + 1) xs

/-- `EnvPath::parse_proj_dir_rules`: `last_chunk` starts as the empty string,
the index at 0, over the `split_terminator` segments of the remainder. -/
def parse_proj_dir_rules {PD : Type} (P : Providers PD)
    (first remain : Str) (separator : Char) : Flow (Option Str) :=
  parseProjAux P first [] none 0 (splitTerminator separator remain)

/-- `EnvPath::handle_project_dirs`. -/
def handle_project_dirs {PD : Type} (P : Providers PD)
    (first_chunk remain : Str) : Option Str :=
  let sep := get_question_mark_separator remain
  if sep = ' ' then
    match set_proj_name_opt_tuple P first_chunk with
    | some (name, proj) => P.matchProj remain name proj
    | none => none
  else (parse_proj_dir_rules P first_chunk remain sep).collapse

/-! ## src/parser.rs: de() -/

/-- The `casing` computed in the `$env` arm of `de()`: the second chunk is
kept verbatim when it contains `*`, otherwise ASCII-uppercased with every
`-` replaced by `_`.  (The Rust code replaces bytes `b'-'` only when one is
present; byte `0x2D` occurs in UTF-8 exactly as the char `-`, and the
unconditional char-wise replacement is the same function.) -/
def envCasing (x : Str) : Str :=
  if x.contains '*' then x
  else (toAsciiUpper x).map (fun c => if c = '-' then '_' else c)

/-- The `or_default` helper inside `de()`: `val.or_else(|| os_cow(s))`,
where `os_cow(s)` is always `Some(s)`. -/
def or_default (val : Option Str) (s : Str) : Option Str :=
  val.orElse (fun _ => some s)

/-- One step of the `de()` fold: resolve a single raw component.  The second
chunk is read with `get_unchecked(1)`; the in-bounds obligation is settled by
the chunk-length theorem below, and the embedding reads the head of the tail
(`headD`, the `get_2nd_chunk` closure). -/
def deComponent {PD : Type} (P : Providers PD) (s : Str) : Option Str :=
  match get_chunks (trim s) with
  | [] => or_default none s
  | c0 :: rest =>
    if c0 = "$env".toList then
      or_default (handle_envs P (envCasing (rest.headD []))) s
    else if c0 = "$const".toList then
      or_default (handle_const_dirs P (rest.headD [])) s
    else if c0 = "$val".toList then
      or_default (handle_values P (rest.headD [])) s
    else if c0 = "$dir".toList then
      or_default (handle_dirs P (rest.headD [])) s
    else if startsWith "$proj".toList c0 then
      or_default (handle_project_dirs P c0 (rest.headD [])) s
    else or_default none s

/-- `EnvPath::de`: `None` early return on an empty raw sequence, otherwise a
fold joining each resolved (or literal-fallback) component onto the
accumulated path.  A `PathBuf` built by successive `join`s is modelled as the
list of joined components. -/
def de {PD : Type} (P : Providers PD) (raw : List Str) : Option (List Str) :=
  if raw.isEmpty then none
  else
    raw.foldl
      (fun acc s => acc.bind (fun accP =>
        (deComponent P s).map (fun p => accP ++ [p])))
      (some [])

/-! ## Specification-side definitions

These definitions follow the words of the specification claims (not the
source); the refinement theorems below compare them with the embedded code. -/

/-- Stated fallback fold of spec §4.3: fold the ordered trimmed segments left
to right with an `Option` accumulator by the four-case
`(accumulator_state, segment_is_empty)` table, stopping early as the table
directs; the result is the early-exit value or the terminal accumulator. -/
def chainSpecFold (fs : Str → Bool) (f : Str → Option Str) :
    Option Str → List Str → Option Str
  | acc, [] => acc
  | acc, x :: xs =>
    match acc, x.isEmpty with
    | none, true => chainSpecFold fs f none xs
    | none, false => chainSpecFold fs f (f x) xs
    | some p, false => some p
    | some p, true => if fs p then some p else chainSpecFold fs f none xs

/-- Stated resolver of claim C1: split the remainder on the separator into
ordered trimmed segments (plain split, which keeps a trailing empty segment
when the remainder ends with the separator) and fold by the table. -/
def chainSpecResolve (fs : Str → Bool) (s : Str) (f : Str → Option Str)
    (sep : Char) : Option Str :=
  chainSpecFold fs f none ((splitOnChar sep s).map trim)

/-- The per-identifier normalization asserted by claim C4: fold the identifier
to upper case with `-` replaced by `_`, unless the identifier itself contains
a `*`.  (The same character function as `envCasing`, but meant to be applied
to each identifier separately.) -/
def claimEnvNormalize (x : Str) : Str :=
  if x.contains '*' then x
  else (toAsciiUpper x).map (fun c => if c = '-' then '_' else c)

/-- The `$env:` chain resolution asserted by claim C4: each identifier is
normalized per-identifier before the lookup dispatch is consulted. -/
def claimEnvResolve {PD : Type} (P : Providers PD) (chunk2 : Str) :
    Option Str :=
  let sep := get_question_mark_separator chunk2
  if sep = ' ' then P.env (claimEnvNormalize chunk2)
  else
    (parse_dir_rules P chunk2
      (fun x => match_os_env P (claimEnvNormalize x)) sep).collapse

/-- Stated project-group walk of claim C6: the current group starts as the
outer namespace tag, an alternative containing `(` becomes the new current
group, one without `(` reuses the most recently remembered group, and the
directory key is the trailing identifier after the last colon variant;
the presence/emptiness state machine is that of §4.3. -/
def projGroupSpec {PD : Type} (P : Providers PD) :
    Str → Option Str → List Str → Option Str
  | _, acc, [] => acc
  | current, acc, x :: xs =>
    match acc, (trim x).isEmpty with
    | none, true => projGroupSpec P current none xs
    | none, false =>
      match set_proj_name_opt_tuple P
          (if (trim x).contains '(' then trim x else current) with
      | none => none
      | some (name, proj) =>
        projGroupSpec P (if (trim x).contains '(' then trim x else current)
          (P.matchProj (trim (afterLastOf [FULL_COLON, HALF_COLON] (trim x)))
            name proj) xs
    | some p, false => some p
    | some p, true =>
      if P.fs p then some p else projGroupSpec P current none xs

/-! ## Concrete provider instances for counterexamples and witnesses -/

/-- Providers with nothing set: no environment variables, no directories,
no project directories, and a filesystem on which no path exists. -/
def trivialProviders : Providers Unit :=
  { env := fun _ => none, baseDirs := fun _ => none,
    constDirs := fun _ => none, vals := fun _ => none,
    pdFrom := fun _ _ _ => none, matchProj := fun _ _ _ => none,
    fs := fun _ => false }

/-- Providers with exactly the environment variable `HOME=/home/u`. -/
def envHomeProviders : Providers Unit :=
  { trivialProviders with
    env := fun s => if s = "HOME".toList then some "/home/u".toList else none }

/-- Providers with exactly the environment variable `A_B=/ab`. -/
def envABProviders : Providers Unit :=
  { trivialProviders with
    env := fun s => if s = "A_B".toList then some "/ab".toList else none }

/-- Lookup function holding exactly the identifier `a`, used against a
filesystem on which nothing exists. -/
def lookupOnlyA : Str → Option Str :=
  fun x => if x = "a".toList then some "/v".toList else none

/-- Project-directory providers: group `(d.e.f)` has a `y` directory, nothing
else resolves. -/
def projYProviders : Providers Unit :=
  { trivialProviders with
    matchProj := fun ident name _ =>
      if ident = "y".toList ∧ name = "d.e.f".toList then some "/y".toList
      else none }

/-! ## Supporting lemmas -/

theorem utf8Size_pos (c : Char) : 0 < utf8Size c := by
  unfold utf8Size
  split
  · omega
  · split
    · omega
    · split <;> omega

theorem findChar_eq_none_iff {s : Str} {c : Char} :
    findChar s c = none ↔ c ∉ s := by
  induction s with
  | nil => simp [findChar]
  | cons x xs ih =>
    by_cases hx : x = c
    · subst hx
      simp [findChar]
    · simp [findChar, hx, Option.map_eq_none', ih, Ne.symm hx]

theorem mem_of_findChar_eq_some {s : Str} {c : Char} {n : Nat}
    (h : findChar s c = some n) : c ∈ s := by
  by_contra hmem
  rw [findChar_eq_none_iff.mpr hmem] at h
  exact Option.noConfusion h

theorem findChar_same_offset {s : Str} {a b : Char} {n : Nat}
    (ha : findChar s a = some n) (hb : findChar s b = some n) : a = b := by
  induction s generalizing n with
  | nil => simp [findChar] at ha
  | cons x xs ih =>
    simp only [findChar] at ha hb
    by_cases hxa : x = a <;> by_cases hxb : x = b
    · rw [← hxa, hxb]
    · rw [if_pos hxa] at ha
      rw [if_neg hxb] at hb
      obtain ⟨m, _, hmn⟩ := Option.map_eq_some'.mp hb
      have := utf8Size_pos x
      injection ha with h0
      omega
    · rw [if_neg hxa] at ha
      rw [if_pos hxb] at hb
      obtain ⟨m, _, hmn⟩ := Option.map_eq_some'.mp ha
      have := utf8Size_pos x
      injection hb with h0
      omega
    · rw [if_neg hxa] at ha
      rw [if_neg hxb] at hb
      obtain ⟨m1, hm1, hn1⟩ := Option.map_eq_some'.mp ha
      obtain ⟨m2, hm2, hn2⟩ := Option.map_eq_some'.mp hb
      have : m1 = m2 := by omega
      exact ih hm1 (this ▸ hm2)

theorem splitN2_ne_nil (sep : Char) (s : Str) : splitN2 sep s ≠ [] := by
  induction s with
  | nil => simp [splitN2]
  | cons x xs ih =>
    simp only [splitN2]
    split
    · simp
    · cases h : splitN2 sep xs with
      | nil => exact absurd h ih
      | cons p ps => simp

theorem splitN2_length (sep : Char) (s : Str) :
    (splitN2 sep s).length = if sep ∈ s then 2 else 1 := by
  induction s with
  | nil => simp [splitN2]
  | cons x xs ih =>
    simp only [splitN2]
    by_cases hx : x = sep
    · subst hx
      simp
    · rw [if_neg hx]
      cases h : splitN2 sep xs with
      | nil => exact absurd h (splitN2_ne_nil sep xs)
      | cons p ps =>
        rw [h] at ih
        by_cases hm : sep ∈ xs
        · rw [if_pos hm] at ih
          rw [if_pos (List.mem_cons_of_mem x hm)]
          simpa using ih
        · rw [if_neg hm] at ih
          rw [if_neg (fun hmem => by
            rcases List.mem_cons.mp hmem with he | he
            · exact hx he.symm
            · exact hm he)]
          simpa using ih

theorem split_n_length (s : Str) (c : Char) :
    (split_n s c).length = if c ∈ s then 2 else 1 := by
  simp [split_n, splitN2_length]

theorem splitOnChar_cons_eq (sep x : Char) (xs : Str) {p : Str}
    {ps : List Str} (h : splitOnChar sep xs = p :: ps) :
    splitOnChar sep (x :: xs)
      = if x = sep then [] :: p :: ps else (x :: p) :: ps := by
  simp only [splitOnChar, h]

theorem splitOnChar_ne_nil (sep : Char) (s : Str) : splitOnChar sep s ≠ [] := by
  induction s with
  | nil => simp [splitOnChar]
  | cons x xs ih =>
    cases h : splitOnChar sep xs with
    | nil => exact absurd h ih
    | cons p ps =>
      rw [splitOnChar_cons_eq sep x xs h]
      split <;> simp

theorem mem_of_mem_splitOnChar {sep : Char} {s p : Str} {c : Char}
    (hp : p ∈ splitOnChar sep s) (hc : c ∈ p) : c ∈ s := by
  induction s generalizing p with
  | nil =>
    simp only [splitOnChar, List.mem_singleton] at hp
    subst hp
    simp at hc
  | cons x xs ih =>
    cases h : splitOnChar sep xs with
    | nil => exact absurd h (splitOnChar_ne_nil sep xs)
    | cons q qs =>
      rw [splitOnChar_cons_eq sep x xs h] at hp
      have hq : q ∈ splitOnChar sep xs := h ▸ List.mem_cons_self q qs
      have hqs : ∀ r ∈ qs, r ∈ splitOnChar sep xs :=
        fun r hr => h ▸ List.mem_cons_of_mem q hr
      split at hp
      · rcases List.mem_cons.mp hp with h1 | h1
        · subst h1; simp at hc
        · rcases List.mem_cons.mp h1 with h2 | h2
          · exact List.mem_cons_of_mem x (ih (h2 ▸ hq) hc)
          · exact List.mem_cons_of_mem x (ih (hqs p h2) hc)
      · rcases List.mem_cons.mp hp with h1 | h1
        · subst h1
          rcases List.mem_cons.mp hc with h2 | h2
          · exact h2 ▸ List.mem_cons_self x xs
          · exact List.mem_cons_of_mem x (ih hq h2)
        · exact List.mem_cons_of_mem x (ih (hqs p h1) hc)

theorem splitOnChar_of_not_mem {sep : Char} {s : Str} (h : sep ∉ s) :
    splitOnChar sep s = [s] := by
  induction s with
  | nil => rfl
  | cons x xs ih =>
    have hx : x ≠ sep := fun he => h (he ▸ List.mem_cons_self x xs)
    have hxs : sep ∉ xs := fun hm => h (List.mem_cons_of_mem x hm)
    rw [splitOnChar_cons_eq sep x xs (ih hxs), if_neg hx]

theorem splitOnChar_append_sep {sep : Char} {xs ys : Str} (h : sep ∉ xs) :
    splitOnChar sep (xs ++ sep :: ys) = xs :: splitOnChar sep ys := by
  induction xs with
  | nil =>
    cases hys : splitOnChar sep ys with
    | nil => exact absurd hys (splitOnChar_ne_nil sep ys)
    | cons q qs =>
      rw [List.nil_append, splitOnChar_cons_eq sep sep ys hys, if_pos rfl]
  | cons x xs ih =>
    have hx : x ≠ sep := fun he => h (he ▸ List.mem_cons_self x xs)
    have hxs : sep ∉ xs := fun hm => h (List.mem_cons_of_mem x hm)
    have ih2 := ih hxs
    cases hys : splitOnChar sep ys with
    | nil => exact absurd hys (splitOnChar_ne_nil sep ys)
    | cons q qs =>
      rw [hys] at ih2
      rw [List.cons_append, splitOnChar_cons_eq sep x (xs ++ sep :: ys) ih2,
        if_neg hx]

theorem dropWhile_eq_self_of_all {p : Char → Bool} {l : Str}
    (h : ∀ c ∈ l, p c = false) : l.dropWhile p = l := by
  cases l with
  | nil => rfl
  | cons x xs =>
    rw [List.dropWhile_cons, if_neg]
    simp [h x (List.mem_cons_self x xs)]

theorem head?_dropWhile {p : Char → Bool} {l : Str} {a : Char}
    (h : (l.dropWhile p).head? = some a) : p a = false := by
  induction l with
  | nil => simp [List.dropWhile] at h
  | cons x xs ih =>
    rw [List.dropWhile_cons] at h
    split at h
    · exact ih h
    · simp only [List.head?_cons, Option.some.injEq] at h
      subst h
      simpa using ‹¬ p x = true›

theorem trim_eq_self_of_all {s : Str} (h : ∀ c ∈ s, isRustWs c = false) :
    trim s = s := by
  unfold trim trimStart trimEnd
  rw [dropWhile_eq_self_of_all h]
  rw [dropWhile_eq_self_of_all (fun c hc => h c (List.mem_reverse.mp hc))]
  exact List.reverse_reverse s

theorem trimEnd_append_eq (s : Str) : ∃ t, trimEnd s ++ t = s := by
  obtain ⟨t, ht⟩ := (List.dropWhile_suffix (l := s.reverse) isRustWs)
  refine ⟨t.reverse, ?_⟩
  unfold trimEnd
  have := congrArg List.reverse ht
  simpa [List.reverse_append] using this

theorem head?_trimEnd {s : Str} {c : Char} (h : (trimEnd s).head? = some c) :
    s.head? = some c := by
  obtain ⟨t, ht⟩ := trimEnd_append_eq s
  rw [← ht, List.head?_append, h]
  rfl

theorem trim_head?_not_ws {s : Str} {c : Char}
    (h : (trim s).head? = some c) : isRustWs c = false := by
  unfold trim at h
  exact head?_dropWhile (head?_trimEnd h)

theorem splitN2_head? (sep : Char) (s : Str) :
    (splitN2 sep s).head? = some (s.takeWhile (· ≠ sep)) := by
  induction s with
  | nil => simp [splitN2, List.takeWhile]
  | cons x xs ih =>
    simp only [splitN2]
    by_cases hx : x = sep
    · subst hx
      simp [List.takeWhile_cons]
    · rw [if_neg hx]
      cases h : splitN2 sep xs with
      | nil => exact absurd h (splitN2_ne_nil sep xs)
      | cons p ps =>
        rw [h] at ih
        simp only [List.head?_cons, Option.some.injEq] at ih
        simp only [ne_eq, decide_not] at ih
        simp [List.takeWhile_cons, hx, ← ih, decide_not]

theorem head?_takeWhile {p : Char → Bool} {l : Str} {c : Char}
    (h : (l.takeWhile p).head? = some c) : l.head? = some c := by
  cases l with
  | nil => simp [List.takeWhile] at h
  | cons x xs =>
    rw [List.takeWhile_cons] at h
    split at h
    · simpa using h
    · simp at h

theorem get_chunks_eq_none_none {s : Str}
    (h1 : findChar s HALF_COLON = none) (h2 : findChar s FULL_COLON = none) :
    get_chunks s = [] := by
  unfold get_chunks
  rw [h1, h2]

theorem get_chunks_eq_some_none {s : Str} {h : Nat}
    (h1 : findChar s HALF_COLON = some h)
    (h2 : findChar s FULL_COLON = none) :
    get_chunks s = split_n s HALF_COLON := by
  unfold get_chunks
  rw [h1, h2]

theorem get_chunks_eq_none_some {s : Str} {f : Nat}
    (h1 : findChar s HALF_COLON = none)
    (h2 : findChar s FULL_COLON = some f) :
    get_chunks s = split_n s FULL_COLON := by
  unfold get_chunks
  rw [h1, h2]

theorem get_chunks_eq_some_some {s : Str} {h f : Nat}
    (h1 : findChar s HALF_COLON = some h)
    (h2 : findChar s FULL_COLON = some f) :
    get_chunks s
      = if h < f then split_n s HALF_COLON
        else if f < h then split_n s FULL_COLON
        else [] := by
  unfold get_chunks
  rw [h1, h2]

theorem colon_variants_ne_offsets {s : Str} {h f : Nat}
    (h1 : findChar s HALF_COLON = some h)
    (h2 : findChar s FULL_COLON = some f) : h ≠ f := by
  intro he
  exact absurd (findChar_same_offset h1 (he ▸ h2)) (by decide)

theorem get_chunks_length_two_of_colon {s : Str}
    (hmem : HALF_COLON ∈ s ∨ FULL_COLON ∈ s) :
    (get_chunks s).length = 2 := by
  have hlen2 : ∀ c : Char, c ∈ s → (split_n s c).length = 2 := by
    intro c hc
    rw [split_n_length, if_pos hc]
  cases h1 : findChar s HALF_COLON with
  | none =>
    cases h2 : findChar s FULL_COLON with
    | none =>
      rcases hmem with hm | hm
      · exact absurd hm (findChar_eq_none_iff.mp h1)
      · exact absurd hm (findChar_eq_none_iff.mp h2)
    | some f =>
      rw [get_chunks_eq_none_some h1 h2]
      exact hlen2 _ (mem_of_findChar_eq_some h2)
  | some h =>
    cases h2 : findChar s FULL_COLON with
    | none =>
      rw [get_chunks_eq_some_none h1 h2]
      exact hlen2 _ (mem_of_findChar_eq_some h1)
    | some f =>
      have hne : h ≠ f := colon_variants_ne_offsets h1 h2
      rw [get_chunks_eq_some_some h1 h2]
      by_cases hlt : h < f
      · rw [if_pos hlt]
        exact hlen2 _ (mem_of_findChar_eq_some h1)
      · rw [if_neg hlt, if_pos (by omega)]
        exact hlen2 _ (mem_of_findChar_eq_some h2)

/-! ## Claim C10 -/

/-- C10: `get_chunks` always returns 0 or exactly 2 chunks, 0 exactly when
neither colon variant occurs in the string, so the unchecked index of element
1 in `de()` (performed only on a non-empty chunk vector) is in bounds. -/
theorem C10_chunks_length (s : Str) :
    ((get_chunks s).length = 0 ∨ (get_chunks s).length = 2)
    ∧ (get_chunks s = [] ↔ (HALF_COLON ∉ s ∧ FULL_COLON ∉ s))
    ∧ (get_chunks s ≠ [] → 1 < (get_chunks s).length) := by
  by_cases hmem : HALF_COLON ∈ s ∨ FULL_COLON ∈ s
  · have hlen := get_chunks_length_two_of_colon hmem
    refine ⟨Or.inr hlen, ⟨fun hnil => ?_, fun hno => ?_⟩, fun _ => by omega⟩
    · rw [hnil] at hlen
      simp at hlen
    · rcases hmem with hm | hm
      · exact absurd hm hno.1
      · exact absurd hm hno.2
  · push_neg at hmem
    have hnil : get_chunks s = [] :=
      get_chunks_eq_none_none (findChar_eq_none_iff.mpr hmem.1)
        (findChar_eq_none_iff.mpr hmem.2)
    refine ⟨Or.inl (by rw [hnil]; rfl), ⟨fun _ => hmem, fun _ => hnil⟩,
      fun hne => absurd hnil hne⟩


/-- Witness for C10 at a concrete input containing a colon. -/
theorem C10_witness : 1 < (get_chunks "$env: home".toList).length :=
  (C10_chunks_length "$env: home".toList).2.2 (by decide)

/-! ## Claim C3 (corrected) -/

/-- Counterexample to C3 as stated: the empty raw sequence resolves to an
absent path (not an empty-but-present one), and a sequence holding one fully
unresolvable `$env:` expression resolves to a present path (the literal raw
text), not to absent. -/
theorem C3_counterexample :
    de trivialProviders ([] : List Str) = none
    ∧ de trivialProviders ([] : List Str) ≠ some ([] : List Str)
    ∧ de trivialProviders ["$env: no_such_env".toList]
        = some ["$env: no_such_env".toList] := by
  refine ⟨rfl, by decide, by decide⟩

theorem or_default_isSome (v : Option Str) (s : Str) :
    (or_default v s).isSome = true := by
  cases v <;> rfl

theorem deComponent_isSome {PD : Type} (P : Providers PD) (s : Str) :
    (deComponent P s).isSome = true := by
  unfold deComponent
  split
  · exact or_default_isSome _ _
  · split
    · exact or_default_isSome _ _
    · split
      · exact or_default_isSome _ _
      · split
        · exact or_default_isSome _ _
        · split
          · exact or_default_isSome _ _
          · split
            · exact or_default_isSome _ _
            · exact or_default_isSome _ _

/-- C3 amended: an empty raw sequence resolves to an absent path, and a
non-empty raw sequence always resolves to a present path, because a component
that fails to resolve falls back to its literal raw text (`or_default`). -/
theorem C3_boundary_amended (PD : Type) (P : Providers PD) (raw : List Str) :
    de P [] = none ∧ (raw ≠ [] → (de P raw).isSome = true) := by
  constructor
  · rfl
  · intro h
    unfold de
    rw [if_neg (by simpa using h)]
    have main : ∀ (l : List Str) (acc : List Str),
        (l.foldl
          (fun acc s => acc.bind (fun accP =>
            (deComponent P s).map (fun p => accP ++ [p])))
          (some acc)).isSome = true := by
      intro l
      induction l with
      | nil => intro acc; rfl
      | cons s l ih =>
        intro acc
        obtain ⟨p, hp⟩ := Option.isSome_iff_exists.mp (deComponent_isSome P s)
        simp only [List.foldl_cons, Option.bind_some, hp, Option.map_some']
        exact ih (acc ++ [p])
    exact main raw []

/-- Witness for C3 amended on a non-empty sequence. -/
theorem C3_witness :
    (de trivialProviders ["x".toList]).isSome = true :=
  (C3_boundary_amended Unit trivialProviders ["x".toList]).2 (by decide)

/-! ## Claim C7 (corrected) -/

/-- Counterexample to C7 as stated: for a one-part identity the code fills
the qualifier with that part as well, instead of producing the application
only (the qualifier is not empty). -/
theorem C7_counterexample :
    get_project_name "(x)".toList
      = some ("x".toList, ([] : Str), "x".toList)
    ∧ ("x".toList : Str) ≠ ([] : Str) := by
  exact ⟨by decide, by decide⟩

/-! ## Claim C1 (corrected) -/

/-- Counterexample to C1 as stated: with the remainder `a?` (a chain ending in
a dangling separator), plain splitting yields a trailing empty segment and the
four-case table then demands filesystem existence of the held value, giving an
absent result on a filesystem where nothing exists; the code uses
`split_terminator`, drops that trailing empty segment, and keeps the value. -/
theorem C1_counterexample :
    chainSpecResolve trivialProviders.fs "a?".toList lookupOnlyA HWQM = none
    ∧ (parse_dir_rules trivialProviders "a?".toList lookupOnlyA HWQM).collapse
        = some "/v".toList := by
  exact ⟨by decide, by decide⟩

/-- Collapse of `parse_dir_rules` as an explicit early-exit fold over the
trimmed `split_terminator` segments (shared helper). -/
theorem parse_dir_rules_collapse_eq {PD : Type} (P : Providers PD) (s : Str)
    (f : Str → Option Str) (sep : Char) :
    (parse_dir_rules P s f sep).collapse
      = chainSpecFold P.fs f none ((splitTerminator sep s).map trim) := by
  unfold parse_dir_rules
  generalize (splitTerminator sep s).map trim = segs
  have main : ∀ (segs : List Str) (acc : Option Str),
      (tryFold
        (fun acc x =>
          match acc, x.isEmpty with
          | none, true => Flow.cont none
          | none, false => Flow.cont (f x)
          | some p, false => Flow.brk (some p)
          | some p, true =>
            if P.fs p then Flow.brk (some p) else Flow.cont none)
        acc segs).collapse = chainSpecFold P.fs f acc segs := by
    intro segs
    induction segs with
    | nil => intro acc; cases acc <;> rfl
    | cons x xs ih =>
      intro acc
      cases acc with
      | none =>
        cases hxe : x.isEmpty with
        | true =>
          simp only [tryFold, hxe, chainSpecFold]
          exact ih none
        | false =>
          simp only [tryFold, hxe, chainSpecFold]
          exact ih (f x)
      | some p =>
        cases hxe : x.isEmpty with
        | false =>
          simp only [tryFold, hxe, chainSpecFold]
          rfl
        | true =>
          by_cases hfs : P.fs p
          · simp only [tryFold, hxe, chainSpecFold, if_pos hfs]
            rfl
          · simp only [tryFold, hxe, chainSpecFold, if_neg hfs]
            exact ih none
  exact main segs none

/-- C1 amended: the fallback resolver splits the remainder on the separator
with any trailing empty segment dropped (`split_terminator`), trims the
segments, and folds them left to right with an `Option` accumulator by the
four-case table, the result being the early-exit value or the terminal
accumulator. -/
theorem C1_fallback_chain_amended (PD : Type) (P : Providers PD) (s : Str)
    (f : Str → Option Str) (sep : Char) :
    (parse_dir_rules P s f sep).collapse
      = chainSpecFold P.fs f none ((splitTerminator sep s).map trim) :=
  parse_dir_rules_collapse_eq P s f sep

/-! ## Claim C8 -/

theorem gqms_eq_some_some {s : Str} {h f : Nat}
    (h1 : findChar s HWQM = some h) (h2 : findChar s FWQM = some f) :
    get_question_mark_separator s
      = if h < f then HWQM else if f < h then FWQM else ' ' := by
  unfold get_question_mark_separator
  rw [h1, h2]

theorem gqms_eq_some_none {s : Str} {h : Nat}
    (h1 : findChar s HWQM = some h) (h2 : findChar s FWQM = none) :
    get_question_mark_separator s = HWQM := by
  unfold get_question_mark_separator
  rw [h1, h2]

theorem gqms_eq_none_some {s : Str} {f : Nat}
    (h1 : findChar s HWQM = none) (h2 : findChar s FWQM = some f) :
    get_question_mark_separator s = FWQM := by
  unfold get_question_mark_separator
  rw [h1, h2]

theorem gqms_eq_none_none {s : Str}
    (h1 : findChar s HWQM = none) (h2 : findChar s FWQM = none) :
    get_question_mark_separator s = ' ' := by
  unfold get_question_mark_separator
  rw [h1, h2]

/-- C8: for both separator kinds (question mark and colon, each with a
half-width and a full-width variant), detection returns the variant at the
lower byte offset when both occur (their first-occurrence offsets never tie),
the present variant when exactly one occurs, and the no-separator sentinel
(`' '`, resp. the empty chunk vector) when neither occurs. -/
theorem C8_separator_detection (s : Str) :
    (∀ h f, findChar s HWQM = some h → findChar s FWQM = some f →
      h ≠ f ∧ get_question_mark_separator s
        = if h < f then HWQM else FWQM)
    ∧ (HWQM ∈ s → FWQM ∉ s → get_question_mark_separator s = HWQM)
    ∧ (FWQM ∈ s → HWQM ∉ s → get_question_mark_separator s = FWQM)
    ∧ (HWQM ∉ s → FWQM ∉ s → get_question_mark_separator s = ' ')
    ∧ (∀ h f, findChar s HALF_COLON = some h →
        findChar s FULL_COLON = some f →
      h ≠ f ∧ get_chunks s
        = split_n s (if h < f then HALF_COLON else FULL_COLON))
    ∧ (HALF_COLON ∈ s → FULL_COLON ∉ s → get_chunks s = split_n s HALF_COLON)
    ∧ (FULL_COLON ∈ s → HALF_COLON ∉ s → get_chunks s = split_n s FULL_COLON)
    ∧ (HALF_COLON ∉ s → FULL_COLON ∉ s → get_chunks s = []) := by
  have hfind : ∀ (c : Char), c ∈ s → ∃ n, findChar s c = some n := by
    intro c hc
    cases hn : findChar s c with
    | none => exact absurd hc (findChar_eq_none_iff.mp hn)
    | some n => exact ⟨n, rfl⟩
  refine ⟨?_, ?_, ?_, ?_, ?_, ?_, ?_, ?_⟩
  · intro h f h1 h2
    have hne : h ≠ f := fun he =>
      absurd (findChar_same_offset h1 (he ▸ h2)) (by decide)
    refine ⟨hne, ?_⟩
    rw [gqms_eq_some_some h1 h2]
    by_cases hlt : h < f
    · rw [if_pos hlt, if_pos hlt]
    · rw [if_neg hlt, if_neg hlt, if_pos (by omega)]
  · intro hm hn
    obtain ⟨h, h1⟩ := hfind _ hm
    exact gqms_eq_some_none h1 (findChar_eq_none_iff.mpr hn)
  · intro hm hn
    obtain ⟨f, h2⟩ := hfind _ hm
    exact gqms_eq_none_some (findChar_eq_none_iff.mpr hn) h2
  · intro hm hn
    exact gqms_eq_none_none (findChar_eq_none_iff.mpr hm)
      (findChar_eq_none_iff.mpr hn)
  · intro h f h1 h2
    have hne : h ≠ f := colon_variants_ne_offsets h1 h2
    refine ⟨hne, ?_⟩
    rw [get_chunks_eq_some_some h1 h2]
    by_cases hlt : h < f
    · rw [if_pos hlt, if_pos hlt]
    · rw [if_neg hlt, if_neg hlt, if_pos (by omega)]
  · intro hm hn
    obtain ⟨h, h1⟩ := hfind _ hm
    exact get_chunks_eq_some_none h1 (findChar_eq_none_iff.mpr hn)
  · intro hm hn
    obtain ⟨f, h2⟩ := hfind _ hm
    exact get_chunks_eq_none_some (findChar_eq_none_iff.mpr hn) h2
  · intro hm hn
    exact get_chunks_eq_none_none (findChar_eq_none_iff.mpr hm)
      (findChar_eq_none_iff.mpr hn)

/-- Witness for C8: in `a？b?c` the full-width variant sits at the lower byte
offset and wins; in `x:：y` the half-width colon wins. -/
theorem C8_witness :
    get_question_mark_separator "a？b?c".toList = FWQM
    ∧ get_chunks "x:：y".toList = split_n "x:：y".toList HALF_COLON := by
  constructor
  · have h := (C8_separator_detection "a？b?c".toList).1 5 1
      (by decide) (by decide)
    simpa using h.2
  · have h := (C8_separator_detection "x:：y".toList).2.2.2.2.1 1 2
      (by decide) (by decide)
    simpa using h.2

/-! ## Claim C2 -/

theorem trimEnd_eq_self_of_all {s : Str}
    (h : ∀ c ∈ s, isRustWs c = false) : trimEnd s = s := by
  unfold trimEnd
  rw [dropWhile_eq_self_of_all (fun c hc => h c (List.mem_reverse.mp hc))]
  exact List.reverse_reverse s

theorem trim_append_one_ws {a : Str} (ha : a ≠ [])
    (h : ∀ c ∈ a, isRustWs c = false) : trim (a ++ [' ']) = a := by
  obtain ⟨x, xs, rfl⟩ : ∃ x xs, a = x :: xs := by
    cases a with
    | nil => exact absurd rfl ha
    | cons x xs => exact ⟨x, xs, rfl⟩
  unfold trim trimStart trimEnd
  rw [List.cons_append, List.dropWhile_cons,
    if_neg (by simp [h x (List.mem_cons_self x xs)])]
  rw [show (x :: (xs ++ [' '])).reverse = ' ' :: (xs.reverse ++ [x]) by simp]
  rw [List.dropWhile_cons, if_pos (by decide)]
  rw [dropWhile_eq_self_of_all (fun c hc => by
    rcases List.mem_append.mp hc with hc1 | hc1
    · exact h c (List.mem_cons_of_mem x (List.mem_reverse.mp hc1))
    · rw [List.mem_singleton.mp hc1]
      exact h x (List.mem_cons_self x xs))]
  simp

theorem trim_ws_cons {b : Str} (h : ∀ c ∈ b, isRustWs c = false) :
    trim (' ' :: b) = b := by
  unfold trim trimStart
  rw [List.dropWhile_cons, if_pos (by decide), dropWhile_eq_self_of_all h]
  exact trimEnd_eq_self_of_all h

theorem isEmpty_false_of_ne_nil {a : Str} (ha : a ≠ []) :
    a.isEmpty = false := by
  cases a with
  | nil => exact absurd rfl ha
  | cons x xs => rfl

/-- C2: for every lookup `f` and identifiers `a`, `b`, the chain `a ? b`
resolves to `f a` when present and to `f b` otherwise, independently of the
filesystem; the chain `a ?? b` resolves to `f a` only when it is present and
its path exists, and otherwise to `f b` under presence-only semantics. -/
theorem C2_question_mark_semantics (PD : Type) (P : Providers PD)
    (f : Str → Option Str) (a b : Str) (ha : a ≠ []) (hb : b ≠ [])
    (hac : ∀ c ∈ a, isRustWs c = false ∧ c ≠ '?')
    (hbc : ∀ c ∈ b, isRustWs c = false ∧ c ≠ '?') :
    ((parse_dir_rules P (a ++ " ? ".toList ++ b) f '?').collapse
      = match f a with
        | some v => some v
        | none => f b)
    ∧ ((parse_dir_rules P (a ++ " ?? ".toList ++ b) f '?').collapse
      = match f a with
        | some v => if P.fs v then some v else f b
        | none => f b) := by
  have haw : ∀ c ∈ a, isRustWs c = false := fun c hc => (hac c hc).1
  have hbw : ∀ c ∈ b, isRustWs c = false := fun c hc => (hbc c hc).1
  have haq : '?' ∉ a := fun hm => (hac _ hm).2 rfl
  have hbq : '?' ∉ b := fun hm => (hbc _ hm).2 rfl
  have hq1 : '?' ∉ a ++ [' '] := by
    intro hm
    rcases List.mem_append.mp hm with hm1 | hm1
    · exact haq hm1
    · exact absurd (List.mem_singleton.mp hm1) (by decide)
  have hq2 : '?' ∉ ' ' :: b := by
    intro hm
    rcases List.mem_cons.mp hm with hm1 | hm1
    · exact absurd hm1 (by decide)
    · exact hbq hm1
  have haE : a.isEmpty = false := isEmpty_false_of_ne_nil ha
  have hbE : b.isEmpty = false := isEmpty_false_of_ne_nil hb
  have hmt : ∀ l, trim (a ++ [' ']) :: l = a :: l := by
    intro l
    rw [trim_append_one_ws ha haw]
  constructor
  · have split1 : splitOnChar '?' (a ++ " ? ".toList ++ b)
        = [a ++ [' '], ' ' :: b] := by
      rw [show a ++ " ? ".toList ++ b = (a ++ [' ']) ++ '?' :: (' ' :: b)
        by simp]
      rw [splitOnChar_append_sep hq1, splitOnChar_of_not_mem hq2]
    have st1 : splitTerminator '?' (a ++ " ? ".toList ++ b)
        = [a ++ [' '], ' ' :: b] := by
      unfold splitTerminator
      rw [split1, if_neg (by simp)]
    rw [parse_dir_rules_collapse_eq, st1]
    simp only [List.map, trim_append_one_ws ha haw, trim_ws_cons hbw]
    cases hfa : f a with
    | some v =>
      simp only [chainSpecFold, haE, hfa, hbE]
    | none =>
      simp only [chainSpecFold, haE, hfa, hbE]
  · have split2 : splitOnChar '?' (a ++ " ?? ".toList ++ b)
        = [a ++ [' '], [], ' ' :: b] := by
      rw [show a ++ " ?? ".toList ++ b
          = (a ++ [' ']) ++ '?' :: ([] ++ '?' :: (' ' :: b)) by simp]
      rw [splitOnChar_append_sep hq1,
        splitOnChar_append_sep (by simp : '?' ∉ ([] : Str)),
        splitOnChar_of_not_mem hq2]
    have st2 : splitTerminator '?' (a ++ " ?? ".toList ++ b)
        = [a ++ [' '], [], ' ' :: b] := by
      unfold splitTerminator
      rw [split2, if_neg (by simp)]
    rw [parse_dir_rules_collapse_eq, st2]
    have htn : trim ([] : Str) = [] := rfl
    simp only [List.map, trim_append_one_ws ha haw, trim_ws_cons hbw, htn]
    cases hfa : f a with
    | some v =>
      simp only [chainSpecFold, haE, hfa, hbE, List.isEmpty_nil]
    | none =>
      simp only [chainSpecFold, haE, hfa, hbE, List.isEmpty_nil]

/-- Witness for C2 with the identifiers `u` and `h` and a lookup holding
only `u`. -/
theorem C2_witness :
    ((parse_dir_rules trivialProviders
        ("u".toList ++ " ? ".toList ++ "h".toList)
        (fun x => if x = "u".toList then some "/u".toList else none)
        '?').collapse
      = match (fun x : Str =>
            if x = "u".toList then some "/u".toList else none) "u".toList with
        | some v => some v
        | none => (fun x : Str =>
            if x = "u".toList then some "/u".toList else none) "h".toList) :=
  (C2_question_mark_semantics Unit trivialProviders
    (fun x => if x = "u".toList then some "/u".toList else none)
    "u".toList "h".toList (by decide) (by decide)
    (by decide) (by decide)).1

/-! ## Claim C9 -/

theorem get_chunks_cases (t : Str) :
    get_chunks t = [] ∨ get_chunks t = split_n t HALF_COLON
      ∨ get_chunks t = split_n t FULL_COLON := by
  cases h1 : findChar t HALF_COLON with
  | none =>
    cases h2 : findChar t FULL_COLON with
    | none => exact Or.inl (get_chunks_eq_none_none h1 h2)
    | some f => exact Or.inr (Or.inr (get_chunks_eq_none_some h1 h2))
  | some h =>
    cases h2 : findChar t FULL_COLON with
    | none => exact Or.inr (Or.inl (get_chunks_eq_some_none h1 h2))
    | some f =>
      have hne := colon_variants_ne_offsets h1 h2
      rw [get_chunks_eq_some_some h1 h2]
      by_cases hlt : h < f
      · rw [if_pos hlt]
        exact Or.inr (Or.inl rfl)
      · rw [if_neg hlt, if_pos (by omega)]
        exact Or.inr (Or.inr rfl)

theorem split_n_head? (t : Str) (c : Char) :
    (split_n t c).head? = some (trim (t.takeWhile (· ≠ c))) := by
  unfold split_n
  rw [List.head?_map, splitN2_head? c t]
  rfl

theorem startsWith_head {p : Char} {ps s : Str}
    (h : startsWith (p :: ps) s = true) : s.head? = some p := by
  cases s with
  | nil => simp [startsWith] at h
  | cons c cs =>
    simp only [startsWith, Bool.and_eq_true, decide_eq_true_eq] at h
    rw [List.head?_cons, h.1]

theorem trimEnd_head?_of_not_ws {d : Char} {w : Str}
    (hd : isRustWs d = false) : (trimEnd (d :: w)).head? = some d := by
  cases hte : trimEnd (d :: w) with
  | nil =>
    exfalso
    unfold trimEnd at hte
    have hnil : (d :: w).reverse.dropWhile isRustWs = [] := by
      have := congrArg List.reverse hte
      simpa using this
    have hall := List.dropWhile_eq_nil_iff.mp hnil
    have := hall d (by simp)
    rw [hd] at this
    exact Bool.noConfusion this
  | cons e es =>
    have he : (trimEnd (d :: w)).head? = some e := by rw [hte]; rfl
    have := head?_trimEnd he
    simp only [List.head?_cons, Option.some.injEq] at this
    rw [List.head?_cons, this]

theorem chunk0_head_of_split_n {t : Str}
    (hws : ∀ c, t.head? = some c → isRustWs c = false) (col : Char)
    {c0 : Str} {rest' : List Str} (hc : split_n t col = c0 :: rest') :
    c0 = [] ∨ c0.head? = t.head? := by
  have hhead := split_n_head? t col
  rw [hc] at hhead
  simp only [List.head?_cons, Option.some.injEq] at hhead
  cases t with
  | nil =>
    left
    rw [hhead]
    rfl
  | cons d t2 =>
    by_cases hd : d = col
    · left
      rw [hhead, List.takeWhile_cons, if_neg (by simp [hd])]
      rfl
    · right
      have hwsd : isRustWs d = false := hws d rfl
      rw [hhead, List.takeWhile_cons, if_pos (by simp [hd])]
      unfold trim trimStart
      rw [List.dropWhile_cons, if_neg (by simp [hwsd])]
      rw [trimEnd_head?_of_not_ws hwsd, List.head?_cons]

theorem chunk0_no_tag {t : Str} (hds : t.head? ≠ some '$')
    (hws : ∀ c, t.head? = some c → isRustWs c = false)
    {c0 : Str} {rest : List Str} (hch : get_chunks t = c0 :: rest) :
    c0 ≠ "$env".toList ∧ c0 ≠ "$const".toList ∧ c0 ≠ "$val".toList
    ∧ c0 ≠ "$dir".toList ∧ startsWith "$proj".toList c0 = false := by
  have hc0 : c0 = [] ∨ c0.head? = t.head? := by
    rcases get_chunks_cases t with hc | hc | hc
    · rw [hch] at hc
      exact absurd hc (by simp)
    · exact chunk0_head_of_split_n hws HALF_COLON (hch ▸ hc.symm)
    · exact chunk0_head_of_split_n hws FULL_COLON (hch ▸ hc.symm)
  rcases hc0 with hc0 | hc0
  · subst hc0
    exact ⟨by decide, by decide, by decide, by decide, rfl⟩
  · have hnod : c0.head? ≠ some '$' := by
      rw [hc0]; exact hds
    refine ⟨?_, ?_, ?_, ?_, ?_⟩
    · intro he; exact hnod (by rw [he]; rfl)
    · intro he; exact hnod (by rw [he]; rfl)
    · intro he; exact hnod (by rw [he]; rfl)
    · intro he; exact hnod (by rw [he]; rfl)
    · cases hsw : startsWith "$proj".toList c0 with
      | false => rfl
      | true => exact absurd (startsWith_head hsw) hnod

theorem deComponent_literal {PD : Type} (P : Providers PD) {s : Str}
    (h : (trim s).head? ≠ some '$') : deComponent P s = some s := by
  unfold deComponent
  cases hch : get_chunks (trim s) with
  | nil => rfl
  | cons c0 rest =>
    obtain ⟨h1, h2, h3, h4, h5⟩ := chunk0_no_tag h
      (fun c hc => trim_head?_not_ws hc) hch
    simp only [h1, h2, h3, h4, h5, if_false, ite_false]
    rfl

/-- C9: a raw sequence consisting only of literal strings (components that,
after trimming, do not begin with `$`) resolves to exactly the joined literal
path, each component unchanged. -/
theorem C9_literal_roundtrip (PD : Type) (P : Providers PD) (raw : List Str)
    (hne : raw ≠ [])
    (hlit : ∀ s ∈ raw, (trim s).head? ≠ some '$') :
    de P raw = some raw := by
  unfold de
  rw [if_neg (by simpa using hne)]
  have main : ∀ (l : List Str) (acc : List Str),
      (∀ s ∈ l, (trim s).head? ≠ some '$') →
      (l.foldl
        (fun acc s => acc.bind (fun accP =>
          (deComponent P s).map (fun p => accP ++ [p])))
        (some acc)) = some (acc ++ l) := by
    intro l
    induction l with
    | nil => intro acc _; simp
    | cons s l ih =>
      intro acc hl
      simp only [List.foldl_cons, Option.some_bind,
        deComponent_literal P (hl s (List.mem_cons_self s l)),
        Option.map_some']
      rw [ih (acc ++ [s]) (fun x hx => hl x (List.mem_cons_of_mem s hx))]
      simp
  simpa using main raw [] hlit

/-- Witness for C9 on a two-component literal sequence, one component
containing a colon. -/
theorem C9_witness :
    de trivialProviders ["a".toList, "b:c".toList]
      = some ["a".toList, "b:c".toList] :=
  C9_literal_roundtrip Unit trivialProviders ["a".toList, "b:c".toList]
    (by decide) (by decide)

/-! ## Claim C5 -/

theorem trimEnd_eq_self_of_last {l : Str} {d : Char}
    (h : l.reverse.head? = some d) (hd : isRustWs d = false) :
    trimEnd l = l := by
  unfold trimEnd
  cases hr : l.reverse with
  | nil =>
    rw [hr] at h
    exact absurd h (by simp)
  | cons e es =>
    rw [hr] at h
    simp only [List.head?_cons, Option.some.injEq] at h
    subst h
    rw [List.dropWhile_cons, if_neg (by simp [hd]), ← hr,
      List.reverse_reverse]

theorem trimStartMatchesGo_of_false {pat s : Str} (fuel : Nat)
    (h : startsWith pat s = false) : trimStartMatchesGo pat fuel s = s := by
  cases fuel with
  | zero => rfl
  | succ n =>
    unfold trimStartMatchesGo
    split
    · rfl
    · rw [if_neg (by simp [h])]

theorem trimStartMatchesGo_step {pat s : Str} {fuel : Nat}
    (hp : pat.isEmpty = false) (hsw : startsWith pat s = true) :
    trimStartMatchesGo pat (fuel + 1) s
      = trimStartMatchesGo pat fuel (s.drop pat.length) := by
  conv_lhs => rw [trimStartMatchesGo]
  rw [if_neg (by simp [hp]), if_pos hsw]

theorem trimStartMatchesStr_env (ident : Str) :
    trimStartMatchesStr "env".toList ("env * ".toList ++ ident)
      = " * ".toList ++ ident := by
  unfold trimStartMatchesStr
  have hlen : ("env * ".toList ++ ident).length = (ident.length + 5) + 1 := by
    simp
  rw [hlen]
  rw [trimStartMatchesGo_step (by decide) (by rfl)]
  rw [show ("env * ".toList ++ ident).drop "env".toList.length
      = " * ".toList ++ ident from rfl]
  exact trimStartMatchesGo_of_false _ (by rfl)

theorem trim_space_star_space {ident : Str} (hne : ident ≠ [])
    (hws : ∀ c ∈ ident, isRustWs c = false) :
    trim (" * ".toList ++ ident) = "* ".toList ++ ident := by
  obtain ⟨e, es, hrev⟩ : ∃ e es, ident.reverse = e :: es := by
    cases hr : ident.reverse with
    | nil => exact absurd (by simpa using congrArg List.reverse hr) hne
    | cons e es => exact ⟨e, es, rfl⟩
  have he : isRustWs e = false :=
    hws e (List.mem_reverse.mp (hrev ▸ List.mem_cons_self e es))
  unfold trim trimStart
  rw [show " * ".toList ++ ident = ' ' :: ('*' :: (' ' :: ident)) from rfl]
  rw [List.dropWhile_cons, if_pos (by decide)]
  rw [List.dropWhile_cons, if_neg (by decide)]
  exact trimEnd_eq_self_of_last (d := e)
    (by rw [show ('*' :: (' ' :: ident)).reverse
          = ident.reverse ++ [' ', '*'] by simp, hrev]
        rfl) he

theorem trim_space_ident {ident : Str}
    (hws : ∀ c ∈ ident, isRustWs c = false) :
    trim (' ' :: ident) = ident := by
  unfold trim trimStart
  rw [List.dropWhile_cons, if_pos (by decide), dropWhile_eq_self_of_all hws]
  exact trimEnd_eq_self_of_all hws

/-- C5: a remix alternative `env * <identifier>` looks up the environment
variable named exactly `<identifier>`, verbatim, with no case folding and no
dash replacement; by contrast, the primary expression `$env: home` consults
the provider at the folded key `HOME` (falling back to the literal raw text
when the variable is absent). -/
theorem C5_remix_verbatim (PD : Type) (P : Providers PD) (ident : Str)
    (hne : ident ≠ []) (hws : ∀ c ∈ ident, isRustWs c = false) :
    parse_remix_expr P ("env * ".toList ++ ident) = P.env ident
    ∧ (∀ Q : Providers PD, de Q ["$env: home".toList]
        = some [(Q.env "HOME".toList).getD "$env: home".toList]) := by
  constructor
  · have hrem : handle_remix P ("env * ".toList ++ ident) "env".toList
        = P.env ident := by
      unfold handle_remix
      rw [trimStartMatchesStr_env, trim_space_star_space hne hws]
      rw [if_pos (by rfl)]
      rw [show trimStartMatchesChar '*' ("* ".toList ++ ident)
          = ' ' :: ident from rfl]
      rw [trim_space_ident hws]
      rfl
    have hfil : START_ARR.filter
        (fun start => startsWith start ("env * ".toList ++ ident))
        = ["env".toList] := rfl
    unfold parse_remix_expr
    rw [hfil]
    simp only [List.map, hrem]
    cases ho : P.env ident with
    | none => simp [List.findSome?, ho]
    | some v => simp [List.findSome?, ho]
  · intro Q
    have h1 : de Q ["$env: home".toList]
        = (or_default (Q.env "HOME".toList) "$env: home".toList).map
            (fun p => [] ++ [p]) := rfl
    rw [h1]
    cases hqe : Q.env "HOME".toList with
    | none => simp [or_default, Option.orElse, hqe]
    | some v => simp [or_default, Option.orElse, hqe]

/-- Witness for C5 at the identifier `HOME` with `HOME=/home/u` set. -/
theorem C5_witness :
    parse_remix_expr envHomeProviders ("env * ".toList ++ "HOME".toList)
      = envHomeProviders.env "HOME".toList :=
  (C5_remix_verbatim Unit envHomeProviders "HOME".toList
    (by decide) (by decide)).1

/-! ## Claim C7 amended -/

theorem joinDot_cons_cons (p q : Str) (rest : List Str) :
    joinDot (p :: q :: rest) = p ++ '.' :: joinDot (q :: rest) := by
  unfold joinDot
  rw [List.intersperse_cons_cons]
  simp

theorem splitOnChar_joinDot (parts : List Str) (hne : parts ≠ [])
    (hnd : ∀ p ∈ parts, '.' ∉ p) :
    splitOnChar '.' (joinDot parts) = parts := by
  induction parts with
  | nil => exact absurd rfl hne
  | cons p rest ih =>
    cases rest with
    | nil =>
      have : joinDot [p] = p := by
        unfold joinDot
        simp
      rw [this]
      exact splitOnChar_of_not_mem (hnd p (List.mem_cons_self p []))
    | cons q rest2 =>
      rw [joinDot_cons_cons]
      rw [splitOnChar_append_sep (hnd p (List.mem_cons_self p _))]
      rw [ih (by simp) (fun x hx => hnd x (List.mem_cons_of_mem p hx))]

theorem map_trim_eq_self {parts : List Str}
    (h : ∀ p ∈ parts, ∀ c ∈ p, isRustWs c = false) :
    parts.map trim = parts := by
  induction parts with
  | nil => rfl
  | cons p rest ih =>
    simp only [List.map,
      trim_eq_self_of_all (h p (List.mem_cons_self p rest)),
      ih (fun x hx => h x (List.mem_cons_of_mem p hx))]

/-- C7 amended: parsing the parenthesized dotted identity yields, with one
part, that part as both the qualifier and the application (organization
empty); with two parts, qualifier and application; with three parts, all
three; with more than three, the first two as qualifier and organization and
the remaining parts concatenated into the application name. -/
theorem C7_project_name_amended (parts : List Str) (hne : parts ≠ [])
    (hp : ∀ p ∈ parts, p ≠ []
      ∧ ∀ c ∈ p, isRustWs c = false ∧ c ≠ '.' ∧ c ≠ '(' ∧ c ≠ ')') :
    get_project_name ('(' :: (joinDot parts ++ [')']))
      = match parts with
        | [] => none
        | [p0] => some (p0, [], p0)
        | [p0, p1] => some (p0, [], p1)
        | [p0, p1, p2] => some (p0, p1, p2)
        | p0 :: p1 :: rest => some (p0, p1, rest.flatten) := by
  have hidx : idxOfChar ('(' :: (joinDot parts ++ [')'])) '(' = some 0 := by
    unfold idxOfChar
    simp [List.findIdx?_cons]
  have hrid : rIdxOfChar ('(' :: (joinDot parts ++ [')'])) ')'
      = some ((joinDot parts).length + 1) := by
    unfold rIdxOfChar
    rw [show ('(' :: (joinDot parts ++ [')'])).reverse
        = ')' :: ((joinDot parts).reverse ++ ['(']) by simp]
    rw [show List.findIdx? (fun c => c = ')')
        (')' :: ((joinDot parts).reverse ++ ['('])) = some 0 by
      simp [List.findIdx?_cons]]
    simp
  have hcontent :
      ((('(' :: (joinDot parts ++ [')'])).take
        ((joinDot parts).length + 1)).drop (0 + 1)) = joinDot parts := by
    rw [List.take_succ_cons, List.take_left]
    simp
  have hsplit : (splitOnChar '.' (joinDot parts)).map trim = parts := by
    rw [splitOnChar_joinDot parts hne
      (fun p hp2 => fun hm => ((hp p hp2).2 '.' hm).2.1 rfl)]
    exact map_trim_eq_self (fun p hp2 c hc => ((hp p hp2).2 c hc).1)
  unfold get_project_name
  rw [hidx, hrid]
  show (match (splitOnChar '.'
      ((('(' :: (joinDot parts ++ [')'])).take
        ((joinDot parts).length + 1)).drop (0 + 1))).map trim with
    | [] => none
    | [p0] => some (p0, [], p0)
    | [p0, p1] => some (p0, [], p1)
    | [p0, p1, p2] => some (p0, p1, p2)
    | p0 :: p1 :: rest => some (p0, p1, rest.flatten)) = _
  rw [hcontent, hsplit]
  cases parts with
  | nil => exact absurd rfl hne
  | cons p0 r1 =>
    cases r1 with
    | nil => rfl
    | cons p1 r2 =>
      cases r2 with
      | nil => rfl
      | cons p2 r3 =>
        cases r3 with
        | nil => rfl
        | cons p3 r4 => rfl

/-- Witness for C7 amended at the four-part identity `(a.b.c.d)`. -/
theorem C7_witness :
    get_project_name ('(' :: (joinDot ["a".toList, "b".toList, "c".toList,
      "d".toList] ++ [')']))
      = some ("a".toList, "b".toList, "cd".toList) := by
  have h := C7_project_name_amended
    ["a".toList, "b".toList, "c".toList, "d".toList] (by decide) (by decide)
  simpa using h

/-! ## Claim C4 (corrected) -/

theorem char_ofNat_toNat_upper (m : Nat) (h1 : 65 ≤ m) (h2 : m ≤ 90) :
    (Char.ofNat m).toNat = m := by
  interval_cases m <;> decide

theorem toNat_upperChar {c : Char} (h : 97 ≤ c.toNat ∧ c.toNat ≤ 122) :
    (toAsciiUpperChar c).toNat = c.toNat - 32 := by
  unfold toAsciiUpperChar
  rw [if_pos h]
  exact char_ofNat_toNat_upper _ (by omega) (by omega)

theorem gchar_toNat_of_alpha {c : Char} (h : 97 ≤ c.toNat ∧ c.toNat ≤ 122) :
    (gchar c).toNat = c.toNat - 32 := by
  unfold gchar
  rw [if_neg, toNat_upperChar h]
  intro he
  have h2 := congrArg Char.toNat he
  rw [toNat_upperChar h] at h2
  have h45 : ('-' : Char).toNat = 45 := by decide
  rw [h45] at h2
  omega

theorem toAsciiUpperChar_eq_self_of_out {c : Char}
    (h : ¬(97 ≤ c.toNat ∧ c.toNat ≤ 122)) : toAsciiUpperChar c = c := by
  unfold toAsciiUpperChar
  rw [if_neg h]

theorem gchar_eq_self_of_out {c : Char}
    (h : ¬(97 ≤ c.toNat ∧ c.toNat ≤ 122)) (hd : c ≠ '-') : gchar c = c := by
  unfold gchar
  rw [toAsciiUpperChar_eq_self_of_out h, if_neg hd]

theorem gchar_dash : gchar '-' = '_' := by decide

theorem gchar_eq_iff (q : Char) (hq65 : ¬(65 ≤ q.toNat ∧ q.toNat ≤ 90))
    (hq95 : q ≠ '_') (hq45 : q ≠ '-')
    (hq97 : ¬(97 ≤ q.toNat ∧ q.toNat ≤ 122)) (c : Char) :
    (gchar c = q) ↔ (c = q) := by
  constructor
  · intro h
    by_cases hr : 97 ≤ c.toNat ∧ c.toNat ≤ 122
    · exfalso
      have h2 := congrArg Char.toNat h
      rw [gchar_toNat_of_alpha hr] at h2
      exact hq65 (by omega)
    · by_cases hd : c = '-'
      · rw [hd, gchar_dash] at h
        exact absurd h.symm hq95
      · rw [gchar_eq_self_of_out hr hd] at h
        exact h
  · intro h
    subst h
    exact gchar_eq_self_of_out hq97 hq45

theorem isRustWs_eq_false_iff {c : Char} :
    isRustWs c = false
      ↔ ¬((9 ≤ c.toNat ∧ c.toNat ≤ 13) ∨ c.toNat = 32 ∨ c.toNat = 133
        ∨ c.toNat = 160 ∨ c.toNat = 5760
        ∨ (8192 ≤ c.toNat ∧ c.toNat ≤ 8202) ∨ c.toNat = 8232
        ∨ c.toNat = 8233 ∨ c.toNat = 8239 ∨ c.toNat = 8287
        ∨ c.toNat = 12288) := by
  unfold isRustWs
  simp only [Bool.or_eq_true, Bool.and_eq_true, decide_eq_true_eq, not_or,
    Bool.or_eq_false_iff, Bool.and_eq_false_iff, decide_eq_false_iff_not]
  omega

theorem isRustWs_gchar (c : Char) : isRustWs (gchar c) = isRustWs c := by
  by_cases hr : 97 ≤ c.toNat ∧ c.toNat ≤ 122
  · have h1 : isRustWs (gchar c) = false := by
      rw [isRustWs_eq_false_iff, gchar_toNat_of_alpha hr]
      omega
    have h2 : isRustWs c = false := by
      rw [isRustWs_eq_false_iff]
      omega
    rw [h1, h2]
  · by_cases hd : c = '-'
    · rw [hd, gchar_dash]
      decide
    · rw [gchar_eq_self_of_out hr hd]

theorem utf8Size_gchar (c : Char) : utf8Size (gchar c) = utf8Size c := by
  by_cases hr : 97 ≤ c.toNat ∧ c.toNat ≤ 122
  · unfold utf8Size
    rw [gchar_toNat_of_alpha hr]
    rw [if_pos (by omega), if_pos (by omega)]
  · by_cases hd : c = '-'
    · rw [hd, gchar_dash]
      decide
    · rw [gchar_eq_self_of_out hr hd]

theorem dropWhile_ws_map {g : Char → Char}
    (hg : ∀ c, isRustWs (g c) = isRustWs c) (s : Str) :
    (s.map g).dropWhile isRustWs = (s.dropWhile isRustWs).map g := by
  induction s with
  | nil => rfl
  | cons x xs ih =>
    simp only [List.map, List.dropWhile_cons, hg x]
    by_cases hx : isRustWs x = true
    · rw [if_pos hx, if_pos hx, ih]
    · rw [if_neg hx, if_neg hx]
      rfl

theorem trim_map {g : Char → Char}
    (hg : ∀ c, isRustWs (g c) = isRustWs c) (s : Str) :
    trim (s.map g) = (trim s).map g := by
  unfold trim trimStart trimEnd
  rw [dropWhile_ws_map hg, ← List.map_reverse, dropWhile_ws_map hg,
    ← List.map_reverse]

theorem splitOnChar_map {g : Char → Char} {sep : Char}
    (hsep : ∀ c, (g c = sep) ↔ (c = sep)) (s : Str) :
    splitOnChar sep (s.map g) = (splitOnChar sep s).map (List.map g) := by
  induction s with
  | nil => rfl
  | cons x xs ih =>
    cases h : splitOnChar sep xs with
    | nil => exact absurd h (splitOnChar_ne_nil sep xs)
    | cons q qs =>
      have hmapped : splitOnChar sep (xs.map g)
          = (q.map g) :: qs.map (List.map g) := by
        rw [ih, h]
        rfl
      rw [show (x :: xs).map g = g x :: xs.map g from rfl]
      rw [splitOnChar_cons_eq sep (g x) (xs.map g) hmapped,
        splitOnChar_cons_eq sep x xs h]
      by_cases hx : x = sep
      · rw [if_pos hx, if_pos ((hsep x).mpr hx)]
        rfl
      · rw [if_neg hx, if_neg (fun he => hx ((hsep x).mp he))]
        rfl

theorem map_ne_nil_iff {g : Char → Char} {l : Str} :
    l.map g = [] ↔ l = [] := by
  cases l <;> simp

theorem dropLast_map' (g : Char → Char) (ps : List Str) :
    (ps.map (List.map g)).dropLast = ps.dropLast.map (List.map g) := by
  induction ps with
  | nil => rfl
  | cons p ps ih =>
    cases ps with
    | nil => rfl
    | cons q qs => exact congrArg (List.cons (p.map g)) ih

theorem splitTerminator_map {g : Char → Char} {sep : Char}
    (hsep : ∀ c, (g c = sep) ↔ (c = sep)) (s : Str) :
    splitTerminator sep (s.map g)
      = (splitTerminator sep s).map (List.map g) := by
  unfold splitTerminator
  rw [splitOnChar_map hsep, List.getLast?_map]
  cases hgl : (splitOnChar sep s).getLast? with
  | none =>
    rw [if_neg (by simp), if_neg (by simp)]
  | some l =>
    by_cases hl : l = []
    · subst hl
      rw [if_pos (by simp), if_pos rfl, dropLast_map']
    · rw [if_neg (by simp [hl]), if_neg (by simp [hl])]

theorem findChar_map {g : Char → Char} {q : Char}
    (hq : ∀ c, (g c = q) ↔ (c = q))
    (hsz : ∀ c, utf8Size (g c) = utf8Size c) (s : Str) :
    findChar (s.map g) q = findChar s q := by
  induction s with
  | nil => rfl
  | cons x xs ih =>
    show findChar (g x :: xs.map g) q = findChar (x :: xs) q
    unfold findChar
    by_cases hx : x = q
    · rw [if_pos ((hq x).mpr hx), if_pos hx]
    · rw [if_neg (fun he => hx ((hq x).mp he)), if_neg hx, ih, hsz x]

theorem gqms_hw_iff (c : Char) : (gchar c = HWQM) ↔ (c = HWQM) :=
  gchar_eq_iff HWQM (by decide) (by decide) (by decide) (by decide) c

theorem gqms_fw_iff (c : Char) : (gchar c = FWQM) ↔ (c = FWQM) :=
  gchar_eq_iff FWQM (by decide) (by decide) (by decide) (by decide) c

theorem gqms_gchar_map (s : Str) :
    get_question_mark_separator (s.map gchar)
      = get_question_mark_separator s := by
  unfold get_question_mark_separator
  rw [findChar_map gqms_hw_iff utf8Size_gchar,
    findChar_map gqms_fw_iff utf8Size_gchar]

theorem isEmpty_map {g : Char → Char} (x : Str) :
    (x.map g).isEmpty = x.isEmpty := by
  cases x <;> rfl

theorem chainSpecFold_map_congr {fs : Str → Bool} {f f' : Str → Option Str}
    {g : Char → Char} :
    ∀ (l : List Str) (acc : Option Str), (∀ x ∈ l, f (x.map g) = f' x) →
    chainSpecFold fs f acc (l.map (List.map g)) = chainSpecFold fs f' acc l
  | [], acc, _ => by cases acc <;> rfl
  | x :: xs, acc, hf => by
    have hie := isEmpty_map (g := g) x
    have htail : ∀ y ∈ xs, f (y.map g) = f' y :=
      fun y hy => hf y (List.mem_cons_of_mem x hy)
    cases acc with
    | none =>
      cases hxe : x.isEmpty with
      | true =>
        simp only [List.map, chainSpecFold, hie, hxe]
        exact chainSpecFold_map_congr xs none htail
      | false =>
        simp only [List.map, chainSpecFold, hie, hxe,
          hf x (List.mem_cons_self x xs)]
        exact chainSpecFold_map_congr xs (f' x) htail
    | some p =>
      cases hxe : x.isEmpty with
      | false => simp only [List.map, chainSpecFold, hie, hxe]
      | true =>
        simp only [List.map, chainSpecFold, hie, hxe]
        by_cases hfs : fs p
        · rw [if_pos hfs, if_pos hfs]
        · rw [if_neg hfs, if_neg hfs]
          exact chainSpecFold_map_congr xs none htail

theorem mem_of_mem_trim {c : Char} {s : Str} (h : c ∈ trim s) : c ∈ s := by
  unfold trim trimStart trimEnd at h
  have h1 := List.dropWhile_subset (l := (s.dropWhile isRustWs).reverse)
    isRustWs (List.mem_reverse.mp h)
  exact List.dropWhile_subset isRustWs (List.mem_reverse.mp h1)

theorem mem_of_mem_splitTerminator {sep : Char} {s p : Str} {c : Char}
    (hp : p ∈ splitTerminator sep s) (hc : c ∈ p) : c ∈ s := by
  unfold splitTerminator at hp
  split at hp
  · exact mem_of_mem_splitOnChar (List.dropLast_subset _ hp) hc
  · exact mem_of_mem_splitOnChar hp hc

theorem contains_eq_false_of_not_mem {c : Char} {s : Str} (h : c ∉ s) :
    s.contains c = false := by
  rw [← Bool.not_eq_true]
  intro hc
  exact h (List.elem_iff.mp hc)

theorem envCasing_eq_map_gchar {c2 : Str} (h : '*' ∉ c2) :
    envCasing c2 = c2.map gchar := by
  unfold envCasing toAsciiUpper
  rw [if_neg (by simpa using h), List.map_map]
  exact List.map_congr_left (fun c _ => rfl)

theorem claimEnvNormalize_eq_envCasing (x : Str) :
    claimEnvNormalize x = envCasing x := rfl

theorem gqms_cases (s : Str) :
    get_question_mark_separator s = HWQM
    ∨ get_question_mark_separator s = FWQM
    ∨ get_question_mark_separator s = ' ' := by
  cases h1 : findChar s HWQM with
  | none =>
    cases h2 : findChar s FWQM with
    | none => exact Or.inr (Or.inr (gqms_eq_none_none h1 h2))
    | some f => exact Or.inr (Or.inl (gqms_eq_none_some h1 h2))
  | some h =>
    cases h2 : findChar s FWQM with
    | none => exact Or.inl (gqms_eq_some_none h1 h2)
    | some f =>
      rw [gqms_eq_some_some h1 h2]
      by_cases hlt : h < f
      · rw [if_pos hlt]
        exact Or.inl rfl
      · rw [if_neg hlt]
        by_cases hgt : f < h
        · rw [if_pos hgt]
          exact Or.inr (Or.inl rfl)
        · rw [if_neg hgt]
          exact Or.inr (Or.inr rfl)

/-- Counterexample to C4 as stated: in the chain `$env: a-b ? c*d` the
identifier `a-b` contains no `*`, so per the claim it should be folded to
`A_B` before the provider is consulted; with `A_B=/ab` set, the claimed
resolution yields `/ab`, but the code disables normalization for the whole
chain because the chunk as a whole contains `*`, finds nothing, and falls
back to the literal raw text. -/
theorem C4_counterexample :
    deComponent envABProviders "$env: a-b ? c*d".toList
      = some "$env: a-b ? c*d".toList
    ∧ or_default (claimEnvResolve envABProviders "a-b ? c*d".toList)
        "$env: a-b ? c*d".toList = some "/ab".toList
    ∧ ("$env: a-b ? c*d".toList : Str) ≠ "/ab".toList := by
  exact ⟨by decide, by decide, by decide⟩

/-- C4 amended: the `*` test and the normalization act on the whole remainder
chunk, not per identifier: when the chunk contains a `*` anywhere it is passed
verbatim (no identifier in the chain is normalized), and when it contains no
`*` the whole chunk is uppercased with `-` replaced by `_`, which normalizes
each identifier exactly as the per-identifier description says. -/
theorem C4_normalization_amended (PD : Type) (P : Providers PD) (c2 : Str) :
    ('*' ∈ c2 → envCasing c2 = c2)
    ∧ ('*' ∉ c2 → handle_envs P (envCasing c2) = claimEnvResolve P c2) := by
  constructor
  · intro hm
    unfold envCasing
    rw [if_pos (by simpa using hm)]
  · intro hm
    rw [envCasing_eq_map_gchar hm]
    unfold handle_envs claimEnvResolve
    rw [gqms_gchar_map c2]
    by_cases hsp : get_question_mark_separator c2 = ' '
    · rw [if_pos hsp, if_pos hsp, claimEnvNormalize_eq_envCasing,
        envCasing_eq_map_gchar hm]
    · rw [if_neg hsp, if_neg hsp,
        parse_dir_rules_collapse_eq, parse_dir_rules_collapse_eq]
      have hqiff : ∀ c, (gchar c = get_question_mark_separator c2)
          ↔ (c = get_question_mark_separator c2) := by
        rcases gqms_cases c2 with hc | hc | hc
        · rw [hc]; exact gqms_hw_iff
        · rw [hc]; exact gqms_fw_iff
        · exact absurd hc hsp
      rw [splitTerminator_map hqiff]
      rw [List.map_map,
        show trim ∘ List.map gchar = (List.map gchar) ∘ trim from
          funext (fun x => trim_map isRustWs_gchar x),
        ← List.map_map]
      apply chainSpecFold_map_congr
      intro x hx
      have hxs : '*' ∉ x := by
        intro hms
        rcases List.mem_map.mp hx with ⟨y, hy, rfl⟩
        exact hm (mem_of_mem_splitTerminator hy (mem_of_mem_trim hms))
      rw [claimEnvNormalize_eq_envCasing, envCasing_eq_map_gchar hxs]

/-- Witness for C4 amended: with no `*`, the handler consults the chain with
every identifier normalized; with a `*`, the chunk passes verbatim. -/
theorem C4_witness :
    handle_envs envABProviders (envCasing "a-b ? c".toList)
      = claimEnvResolve envABProviders "a-b ? c".toList
    ∧ envCasing "c*d".toList = "c*d".toList :=
  ⟨(C4_normalization_amended Unit envABProviders "a-b ? c".toList).2
      (by decide),
   (C4_normalization_amended Unit envABProviders "c*d".toList).1
      (by decide)⟩

/-! ## Claim C6 -/

theorem idxOfChar_eq_none_iff {s : Str} {c : Char} :
    idxOfChar s c = none ↔ c ∉ s := by
  unfold idxOfChar
  rw [List.findIdx?_eq_none_iff]
  constructor
  · intro h hm
    have := h c hm
    simp at this
  · intro h x hx
    simp only [decide_eq_false_iff_not]
    intro he
    exact h (he ▸ hx)

theorem contains_eq_true_of_mem {c : Char} {s : Str} (h : c ∈ s) :
    s.contains c = true :=
  List.elem_iff.mpr h

theorem projChunkSel_eq_spec (first L xt : Str) (k : Nat) :
    projChunkSel first L xt (k + 1)
      = if xt.contains '(' then xt else L := by
  unfold projChunkSel
  cases hio : idxOfChar xt '(' with
  | none =>
    rw [if_neg]
    intro hm
    exact absurd (idxOfChar_eq_none_iff.mp hio)
      (by simpa using List.elem_iff.mp hm)
  | some i =>
    rw [if_pos]
    cases hmem : xt.contains '(' with
    | true => rfl
    | false =>
      exfalso
      have hno : '(' ∉ xt := by
        intro hm
        rw [contains_eq_true_of_mem hm] at hmem
        exact Bool.noConfusion hmem
      rw [idxOfChar_eq_none_iff.mpr hno] at hio
      exact Option.noConfusion hio

theorem parseProjAux_collapse_eq {PD : Type} (P : Providers PD)
    (first : Str) :
    ∀ (xs : List Str) (u : Nat) (L : Str) (acc : Option Str), u ≠ 0 →
    (parseProjAux P first L acc u xs).collapse = projGroupSpec P L acc xs := by
  intro xs
  induction xs with
  | nil =>
    intro u L acc _
    cases acc <;> rfl
  | cons x xs ih =>
    intro u L acc hu
    obtain ⟨k, rfl⟩ : ∃ k, u = k + 1 := by
      cases u with
      | zero => exact absurd rfl hu
      | succ k => exact ⟨k, rfl⟩
    cases acc with
    | none =>
      cases hxe : (trim x).isEmpty with
      | true =>
        simp only [parseProjAux, projGroupSpec, hxe]
        exact ih (k + 2) L none (by omega)
      | false =>
        simp only [parseProjAux, projGroupSpec, hxe,
          projChunkSel_eq_spec first L (trim x) k]
        cases hsp : set_proj_name_opt_tuple P
            (if (trim x).contains '(' then trim x else L) with
        | none => rfl
        | some t =>
          obtain ⟨name, proj⟩ := t
          exact ih (k + 2) _ _ (by omega)
    | some p =>
      cases hxe : (trim x).isEmpty with
      | false =>
        simp only [parseProjAux, projGroupSpec, hxe]
        rfl
      | true =>
        by_cases hfs : P.fs p
        · simp only [parseProjAux, projGroupSpec, hxe, if_pos hfs]
          rfl
        · simp only [parseProjAux, projGroupSpec, hxe, if_neg hfs]
          exact ih (k + 2) L none (by omega)

/-- C6: in a `$proj` chain, an alternative containing `(` parses and becomes
the new current group, an alternative without `(` reuses the most recently
remembered group, the directory key is the trailing identifier after the last
colon variant, and the first alternative without its own group uses the group
of the outer namespace tag; in particular `(a.b.c): x ? (d.e.f): y` resolves
to project `(a.b.c)`'s `x` when present and to project `(d.e.f)`'s `y`
otherwise.  The first hypothesis requires the chain not to begin with an
empty alternative, where the code aborts instead of reusing a group. -/
theorem C6_project_groups (PD : Type) (P : Providers PD)
    (first remain : Str) (sep : Char)
    (hhead : ∀ x, (splitTerminator sep remain).head? = some x →
      trim x ≠ []) :
    ((parse_proj_dir_rules P first remain sep).collapse
      = projGroupSpec P first none (splitTerminator sep remain))
    ∧ (∀ Q : Providers PD,
        (parse_proj_dir_rules Q first
          "(a.b.c): x ? (d.e.f): y".toList '?').collapse
        = match Q.matchProj "x".toList "a.b.c".toList
            (Q.pdFrom "a".toList "b".toList "c".toList) with
          | some v => some v
          | none => Q.matchProj "y".toList "d.e.f".toList
              (Q.pdFrom "d".toList "e".toList "f".toList)) := by
  constructor
  · unfold parse_proj_dir_rules
    cases hsegs : splitTerminator sep remain with
    | nil => rfl
    | cons x xs =>
      have hxe : (trim x).isEmpty = false := by
        have := hhead x (by rw [hsegs]; rfl)
        cases hte : trim x with
        | nil => exact absurd hte this
        | cons c cs => rfl
      simp only [parseProjAux, projGroupSpec, hxe]
      have hc0 : projChunkSel first [] (trim x) 0
          = if (trim x).contains '(' then trim x else first := by
        unfold projChunkSel
        cases hio : idxOfChar (trim x) '(' with
        | none =>
          rw [if_neg]
          intro hm
          exact absurd (idxOfChar_eq_none_iff.mp hio)
            (by simpa using List.elem_iff.mp hm)
        | some i =>
          rw [if_pos]
          have : '(' ∈ trim x := by
            by_contra hno
            rw [idxOfChar_eq_none_iff.mpr hno] at hio
            exact Option.noConfusion hio
          exact contains_eq_true_of_mem this
      rw [hc0]
      cases hsp : set_proj_name_opt_tuple P
          (if (trim x).contains '(' then trim x else first) with
      | none => rfl
      | some t =>
        obtain ⟨name, proj⟩ := t
        exact parseProjAux_collapse_eq P first xs 1 _ _ (by omega)
  · intro Q
    have h1 : (parse_proj_dir_rules Q first
        "(a.b.c): x ? (d.e.f): y".toList '?').collapse
        = (parseProjAux Q first "(a.b.c): x".toList
            (Q.matchProj "x".toList "a.b.c".toList
              (Q.pdFrom "a".toList "b".toList "c".toList)) 1
            [" (d.e.f): y".toList]).collapse := rfl
    rw [h1]
    cases hx : Q.matchProj "x".toList "a.b.c".toList
        (Q.pdFrom "a".toList "b".toList "c".toList) with
    | some v => rfl
    | none => rfl

/-- Witness for C6 with concrete project-directory providers. -/
theorem C6_witness :
    (parse_proj_dir_rules projYProviders "$proj(q.o.a)".toList
      "(a.b.c): x ? (d.e.f): y".toList '?').collapse
      = projGroupSpec projYProviders "$proj(q.o.a)".toList none
          (splitTerminator '?' "(a.b.c): x ? (d.e.f): y".toList) :=
  (C6_project_groups Unit projYProviders "$proj(q.o.a)".toList
    "(a.b.c): x ? (d.e.f): y".toList '?' (by decide)).1

end Envpath
